import Mathlib

/-!
Verification of the non-maximum-suppression (NMS) routine of
`chainercv/links/utils/bbox/non_maximum_suppression.py`.

The numeric arrays of the source are modelled as `List`s over `ℚ`
(the algorithmic claims are about exact arithmetic; floating-point
rounding is out of scope).  A bounding box is the four coordinates
`(x_min, y_min, x_max, y_max)` of the source's second axis.  Machine
words produced by the CUDA kernel (`unsigned long long`) are modelled
as `ℕ` with bit positions below 64, so no wrap-around can occur.

Fallible numpy operations (fancy indexing with an out-of-range index)
are modelled by returning `Option`: `none` stands for the raised
`IndexError`; every successful code path returns `some` result.
-/

/-- A bounding box `(x_min, y_min, x_max, y_max)`, one row of the `(R, 4)`
input tensor. -/
structure Box where
  x0 : ℚ
  y0 : ℚ
  x1 : ℚ
  y1 : ℚ
deriving DecidableEq, Repr, Inhabited

/-- Source line `bbox_area = np.prod(bbox[:, 2:] - bbox[:, :2], axis=1)`,
for a single row: `(x_max - x_min) * (y_max - y_min)`, no clamping. -/
def boxArea (b : Box) : ℚ :=
  (b.x1 - b.x0) * (b.y1 - b.y0)

/-- Intersection area as the sequential (CPU) strategy computes it:
`np.prod(rb - lt, axis=1) * (lt < rb).all(axis=1)` — the raw
width-times-height product multiplied by the indicator that both
lower-left coordinates are strictly below both upper-right ones. -/
def cpuInter (a b : Box) : ℚ :=
  let ltx := max a.x0 b.x0
  let lty := max a.y0 b.y0
  let rbx := min a.x1 b.x1
  let rby := min a.y1 b.y1
  (rbx - ltx) * (rby - lty) * (if ltx < rbx ∧ lty < rby then 1 else 0)

/-- Intersection area as `devIoU` in the CUDA kernel computes it:
`max(right - left, 0.f) * max(bottom - top, 0.f)`. -/
def interS (a b : Box) : ℚ :=
  max (min a.x1 b.x1 - max a.x0 b.x0) 0 * max (min a.y1 b.y1 - max a.y0 b.y0) 0

/-- The device overlap metric `devIoU` of the CUDA kernel:
`interS / (Sa + Sb - interS)` with `Sa`, `Sb` the raw areas of the two
boxes.  (`ℚ` division returns `0` on a zero denominator; the source's
behaviour there is undefined floating point, and no claim depends on it.) -/
def devIoU (a b : Box) : ℚ :=
  interS a b / (boxArea a + boxArea b - interS a b)

/-- The per-pair Jaccard overlap of the sequential formula,
`area / (bbox_area[i] + bbox_area[selec] - area)`, with the two area
operands taken from the two boxes themselves (the aligned-area case,
which is what the loop computes whenever no score reordering happened). -/
def cpuPairJaccard (a b : Box) : ℚ :=
  let inter := cpuInter a b
  inter / (boxArea a + boxArea b - inter)

/-- The Jaccard value the CPU loop actually computes for candidate
position `i` against accepted position `j`: the intersection is taken
from the (possibly score-sorted) box rows, but the two area operands are
read from `bbox_area`, the table the source fills in **before** the
`bbox = bbox[order]` reordering, indexed by the *sorted* positions. -/
def cpuJaccard (area : List ℚ) (sorted : List Box) (i j : ℕ) : ℚ :=
  let inter := cpuInter (sorted.getD i default) (sorted.getD j default)
  inter / (area.getD i 0 + area.getD j 0 - inter)

/-- The break test `limit is not None and np.count_nonzero(selec) >= limit`,
evaluated after the candidate has been accepted (`c` is the new count). -/
def limitHit (limit : Option ℕ) (c : ℕ) : Bool :=
  match limit with
  | none => false
  | some l => decide (l ≤ c)

/-- The suppression loop of `_non_maximum_suppression_cpu`: scan positions
`i, i+1, ...` (`fuel` many), keep the accepted positions in `acc` in scan
order, reject a candidate when some accepted position has Jaccard
`>= thresh` against it, and stop right after an acceptance makes the
count reach `limit`. -/
def nmsLoop (area : List ℚ) (sorted : List Box) (thresh : ℚ) (limit : Option ℕ) :
    ℕ → ℕ → List ℕ → List ℕ
  | 0, _, acc => acc
  | fuel + 1, i, acc =>
    if acc.any fun j => decide (thresh ≤ cpuJaccard area sorted i j) then
      nmsLoop area sorted thresh limit fuel (i + 1) acc
    else
      if limitHit limit (acc.length + 1) then acc ++ [i]
      else nmsLoop area sorted thresh limit fuel (i + 1) (acc ++ [i])

/-- The index ordering `i` before `j` that a stable ascending argsort of
`s` realises: strictly smaller key first, equal keys in original index
order. -/
def scoreRel (s : List ℚ) (i j : ℕ) : Prop :=
  s.getD i 0 < s.getD j 0 ∨ (s.getD i 0 = s.getD j 0 ∧ i ≤ j)

instance (s : List ℚ) : DecidableRel (scoreRel s) := fun i j => by
  unfold scoreRel; infer_instance

instance (s : List ℚ) : IsTotal ℕ (scoreRel s) :=
  ⟨fun i j => by
    rcases lt_trichotomy (s.getD i 0) (s.getD j 0) with h | h | h
    · exact Or.inl (Or.inl h)
    · rcases Nat.le_total i j with hij | hij
      · exact Or.inl (Or.inr ⟨h, hij⟩)
      · exact Or.inr (Or.inr ⟨h.symm, hij⟩)
    · exact Or.inr (Or.inl h)⟩

instance (s : List ℚ) : IsTrans ℕ (scoreRel s) :=
  ⟨fun a b c hab hbc => by
    rcases hab with h1 | ⟨h1, h1'⟩ <;> rcases hbc with h2 | ⟨h2, h2'⟩
    · exact Or.inl (h1.trans h2)
    · exact Or.inl (h2 ▸ h1)
    · exact Or.inl (h1.symm ▸ h2)
    · exact Or.inr ⟨h1.trans h2, h1'.trans h2'⟩⟩

/-- Model of `score.argsort()`: the indices `0 .. len(score)-1` sorted by
ascending score.  numpy's default sort leaves the order of equal keys
unspecified; we model it as the stable ascending argsort (equal keys in
original index order), the canonical deterministic choice. -/
def argsortAsc (s : List ℚ) : List ℕ :=
  List.insertionSort (scoreRel s) (List.range s.length)

/-- Model of `order = score.argsort()[::-1]`: the ascending argsort,
reversed. -/
def argsortDesc (s : List ℚ) : List ℕ :=
  (argsortAsc s).reverse

/-- Model of `_non_maximum_suppression_cpu`.  Mirrors the source line by
line: empty input short-circuits; `bbox_area` is computed **before** the
optional score reordering (and is later indexed by sorted positions, the
source's behaviour); `bbox = bbox[order]` is numpy fancy indexing, which
raises (`none`) when some index is out of range and silently yields a
shorter array when `order` is shorter than `bbox`; the final result maps
the accepted positions back through `order`. -/
def _non_maximum_suppression_cpu (bbox : List Box) (thresh : ℚ)
    (score : Option (List ℚ)) (limit : Option ℕ) : Option (List ℕ) :=
  if bbox.length = 0 then some [] else
  let area := bbox.map boxArea
  match score with
  | none =>
    some (nmsLoop area bbox thresh limit bbox.length 0 [])
  | some s =>
    let order := argsortDesc s
    if order.all fun i => decide (i < bbox.length) then
      let sorted := order.map fun i => bbox.getD i default
      some ((nmsLoop area sorted thresh limit sorted.length 0 []).map
        fun p => order.getD p 0)
    else none

/-- The tile width: `threadsPerBlock = sizeof(unsigned long long) * 8 = 64`
in the kernel, matching `threads_per_block = 64` on the host side. -/
def TILE : ℕ := 64

/-- `col_blocks = DIVUP(n_bbox, threadsPerBlock)`, the number of 64-wide
column tiles. -/
def colBlocks (n : ℕ) : ℕ :=
  (n + TILE - 1) / TILE

/-- `col_size = min(n_bbox - col_start * threadsPerBlock, threadsPerBlock)`,
the number of boxes in column tile `j`. -/
def colSize (n j : ℕ) : ℕ :=
  min (n - j * TILE) TILE

/-- The mask word `nms_kernel` stores at `dev_mask[r * col_blocks + j]` for
row box `r` and column tile `j`: the loop `for (i = start; i < col_size)`
sets bit `i` when `devIoU(cur_box, block_boxes + i*4) >= thresh`, where
`start = threadIdx.x + 1` on the diagonal tile (`row_start == col_start`)
and `0` otherwise. -/
def nmsKernelWord (sorted : List Box) (thresh : ℚ) (r j : ℕ) : ℕ :=
  let start := if r / TILE = j then r % TILE + 1 else 0
  (List.range (colSize sorted.length j)).foldl
    (fun t i =>
      if start ≤ i ∧
          thresh ≤ devIoU (sorted.getD r default) (sorted.getD (j * TILE + i) default)
      then t ||| (1 <<< i) else t)
    0

/-- Modelled from the spec: the scan of §4.4 (Mask Reducer).  Walk the
boxes `i = 0 .. n-1` in priority order keeping a `remaining` bitset of
`col_blocks` 64-bit words, initially all ones; a box whose bit is still
set is accepted and every bit its mask row marks as overlapping is
cleared (bitwise AND with the 64-bit complement of `mask i j`). -/
def nmsGpuPostLoop (mask : ℕ → ℕ → ℕ) : ℕ → ℕ → List ℕ → List ℕ → List ℕ
  | 0, _, _, acc => acc
  | fuel + 1, i, rem, acc =>
    if (rem.getD (i / TILE) 0).testBit (i % TILE) then
      nmsGpuPostLoop mask fuel (i + 1)
        ((List.range rem.length).map fun j =>
          rem.getD j 0 &&& ((2 ^ TILE - 1) ^^^ mask i j))
        (acc ++ [i])
    else
      nmsGpuPostLoop mask fuel (i + 1) rem acc

/-- Modelled from the spec: the sequential mask reduction
`_nms_gpu_post` imported from `chainercv.links.utils.bbox._nms_gpu_post`,
whose source file is not part of this snapshot.  Per §4.4: a
"remaining" bitset of `col_blocks` all-ones words is reduced by the
scan `nmsGpuPostLoop`; the accepted positions come back in scan
(priority) order.  The caller applies the optional `limit` itself, so it
is not a parameter here. -/
def _nms_gpu_post (mask : ℕ → ℕ → ℕ) (n : ℕ) : List ℕ :=
  nmsGpuPostLoop mask n 0 (List.replicate (colBlocks n) (2 ^ TILE - 1)) []

/-- Model of `_non_maximum_suppression_gpu`: empty input short-circuits;
`order` is `arange` or the reversed argsort; `sorted_bbox = bbox[order, :]`;
the kernel fills the mask over the sorted boxes; `_nms_gpu_post` reduces
it; the selection is mapped back through `order` and finally truncated to
`limit`.  A score list whose length differs from `len(bbox)` makes the
device code index out of bounds (shorter: the kernel reads past
`sorted_bbox`; longer: the fancy indexing itself), modelled as `none`. -/
def _non_maximum_suppression_gpu (bbox : List Box) (thresh : ℚ)
    (score : Option (List ℚ)) (limit : Option ℕ) : Option (List ℕ) :=
  if bbox.length = 0 then some [] else
  let n := bbox.length
  match score with
  | none =>
    let order := List.range n
    let sorted := order.map fun i => bbox.getD i default
    let selec := _nms_gpu_post (fun i j => nmsKernelWord sorted thresh i j) n
    let mapped := selec.map fun p => order.getD p 0
    some (match limit with
      | none => mapped
      | some l => mapped.take l)
  | some s =>
    if s.length = n then
      let order := argsortDesc s
      let sorted := order.map fun i => bbox.getD i default
      let selec := _nms_gpu_post (fun i j => nmsKernelWord sorted thresh i j) n
      let mapped := selec.map fun p => order.getD p 0
      some (match limit with
        | none => mapped
        | some l => mapped.take l)
    else none

/-- Model of the dispatcher `non_maximum_suppression`: the source picks the
strategy from the array module of its input (`cuda.get_array_module`);
the residency of the input array is modelled as the flag `onGpu`. -/
def non_maximum_suppression (onGpu : Bool) (bbox : List Box) (thresh : ℚ)
    (score : Option (List ℚ)) (limit : Option ℕ) : Option (List ℕ) :=
  if onGpu then _non_maximum_suppression_gpu bbox thresh score limit
  else _non_maximum_suppression_cpu bbox thresh score limit

/-- A well-formed box: `x_min ≤ x_max` and `y_min ≤ y_max` (§3 of the spec;
not enforced by the code). -/
def wellFormedBox (b : Box) : Prop :=
  b.x0 ≤ b.x1 ∧ b.y0 ≤ b.y1

/-- Two boxes are disjoint when their intersection rectangle is empty
(no positive width or no positive height). -/
def DisjointBoxes (a b : Box) : Prop :=
  min a.x1 b.x1 ≤ max a.x0 b.x0 ∨ min a.y1 b.y1 ≤ max a.y0 b.y0

instance (b : Box) : Decidable (wellFormedBox b) := by
  unfold wellFormedBox; infer_instance

instance (a b : Box) : Decidable (DisjointBoxes a b) := by
  unfold DisjointBoxes; infer_instance

example :
    _non_maximum_suppression_cpu
      [⟨0,0,10,10⟩, ⟨1,1,11,11⟩, ⟨20,20,30,30⟩] (1/2) none none = some [0, 2] := by
  with_unfolding_all decide

example :
    _non_maximum_suppression_cpu
      [⟨0,0,2,2⟩, ⟨10,10,20,20⟩, ⟨0,0,2,2⟩] (1/2) (some [5, 1, 9]) none
      = some [2, 0, 1] := by
  with_unfolding_all decide

example :
    _non_maximum_suppression_gpu
      [⟨0,0,2,2⟩, ⟨10,10,20,20⟩, ⟨0,0,2,2⟩] (1/2) (some [5, 1, 9]) none
      = some [2, 1] := by
  with_unfolding_all decide

example :
    _non_maximum_suppression_gpu
      [⟨0,0,10,10⟩, ⟨1,1,11,11⟩, ⟨20,20,30,30⟩] (1/2) none none = some [0, 2] := by
  with_unfolding_all decide

/-! ## Helper lemmas -/

/-- Every `getD` access into a list either hits an element of the list or
returns the supplied default. -/
theorem list_getD_mem_or {α : Type} (l : List α) (n : ℕ) (d : α) :
    l.getD n d ∈ l ∨ l.getD n d = d := by
  induction l generalizing n with
  | nil => right; cases n <;> rfl
  | cons a t ih =>
    cases n with
    | zero => left; simp [List.getD_cons_zero]
    | succ n =>
      rw [List.getD_cons_succ]
      rcases ih n with h | h
      · exact Or.inl (List.mem_cons_of_mem a h)
      · exact Or.inr h

/-- Without a limit, the suppression loop only ever appends to the
accumulator. -/
theorem nmsLoop_none_eq_append (area : List ℚ) (sorted : List Box) (thresh : ℚ) :
    ∀ fuel i acc, ∃ t, nmsLoop area sorted thresh none fuel i acc = acc ++ t := by
  intro fuel
  induction fuel with
  | zero => exact fun i acc => ⟨[], (List.append_nil acc).symm⟩
  | succ fuel ih =>
    intro i acc
    simp only [nmsLoop]
    by_cases h : (acc.any fun j => decide (thresh ≤ cpuJaccard area sorted i j)) = true
    · rw [if_pos h]; exact ih (i + 1) acc
    · rw [if_neg h, if_neg (by simp [limitHit])]
      obtain ⟨t, ht⟩ := ih (i + 1) (acc ++ [i])
      exact ⟨[i] ++ t, by rw [ht, List.append_assoc]⟩

/-- One unlimited step of the suppression loop: the `limit` break can
never fire, so the step is a plain conditional recursion. -/
theorem nmsLoop_none_succ (area : List ℚ) (sorted : List Box) (thresh : ℚ)
    (fuel i : ℕ) (acc : List ℕ) :
    nmsLoop area sorted thresh none (fuel + 1) i acc
      = if (acc.any fun j => decide (thresh ≤ cpuJaccard area sorted i j)) then
          nmsLoop area sorted thresh none fuel (i + 1) acc
        else nmsLoop area sorted thresh none fuel (i + 1) (acc ++ [i]) := by
  simp only [nmsLoop]
  by_cases h : (acc.any fun j => decide (thresh ≤ cpuJaccard area sorted i j)) = true
  · rw [if_pos h, if_pos h]
  · rw [if_neg h, if_neg h,
      if_neg (show ¬ limitHit none (acc.length + 1) = true by simp [limitHit])]

/-- With a positive limit, the suppression loop computes exactly the
length-`l` prefix of what the unlimited loop computes. -/
theorem nmsLoop_some_eq_take (area : List ℚ) (sorted : List Box) (thresh : ℚ) (l : ℕ) :
    ∀ fuel i acc, acc.length < l →
      nmsLoop area sorted thresh (some l) fuel i acc
        = (nmsLoop area sorted thresh none fuel i acc).take l := by
  intro fuel
  induction fuel with
  | zero =>
    intro i acc hlen
    simp only [nmsLoop]
    exact (List.take_of_length_le hlen.le).symm
  | succ fuel ih =>
    intro i acc hlen
    rw [nmsLoop_none_succ]
    show nmsLoop area sorted thresh (some l) (fuel + 1) i acc = _
    simp only [nmsLoop]
    by_cases h : (acc.any fun j => decide (thresh ≤ cpuJaccard area sorted i j)) = true
    · rw [if_pos h, if_pos h]; exact ih (i + 1) acc hlen
    · rw [if_neg h, if_neg h]
      by_cases h2 : l ≤ acc.length + 1
      · rw [if_pos (show limitHit (some l) (acc.length + 1) = true by
          simp [limitHit]; omega)]
        obtain ⟨t, ht⟩ := nmsLoop_none_eq_append area sorted thresh fuel (i + 1) (acc ++ [i])
        rw [ht, show l = (acc ++ [i]).length from by simp [List.length_append]; omega]
        exact (List.take_left _ _).symm
      · rw [if_neg (show ¬ limitHit (some l) (acc.length + 1) = true by
          simp [limitHit]; omega)]
        exact ih (i + 1) (acc ++ [i]) (by simp [List.length_append]; omega)

/-! ## Claims -/

/-- Claim C1 (refuted; the CPU path is the buggy one): the sequential and
parallel strategies are claimed to return identical sets of accepted
original indices on every input.  Evaluating both on the boxes
`[(0,0,2,2), (10,10,20,20), (0,0,2,2)]` with scores `[5,1,9]` and
threshold `1/2` refutes this: the sequential path computes its Jaccard
denominators from the area table it filled *before* the score
reordering, gets `4/100` instead of `1` for the coincident pair, and so
accepts index `0`, while the parallel path computes the true overlap and
suppresses it. -/
theorem C1_strategy_sets_diverge :
    _non_maximum_suppression_cpu [⟨0,0,2,2⟩, ⟨10,10,20,20⟩, ⟨0,0,2,2⟩] (1/2)
        (some [5, 1, 9]) none = some [2, 0, 1]
    ∧ _non_maximum_suppression_gpu [⟨0,0,2,2⟩, ⟨10,10,20,20⟩, ⟨0,0,2,2⟩] (1/2)
        (some [5, 1, 9]) none = some [2, 1]
    ∧ (0 : ℕ) ∈ [2, 0, 1] ∧ (0 : ℕ) ∉ ([2, 1] : List ℕ) := by
  with_unfolding_all decide

/-- Claim C2 (refuted by the stale-area bug): every pair of returned
indices with distinct priorities is claimed to overlap strictly below the
threshold.  On boxes `[(0,0,2,2), (10,10,20,20), (0,0,2,2)]`, scores
`[5,1,9]`, threshold `1/2`, the sequential selector returns indices `2`
and `0` together although box 2 has the higher score and the two boxes
coincide — their Jaccard overlap is `1 ≥ 1/2`. -/
theorem C2_no_redundant_overlap_violated :
    _non_maximum_suppression_cpu [⟨0,0,2,2⟩, ⟨10,10,20,20⟩, ⟨0,0,2,2⟩] (1/2)
        (some [5, 1, 9]) none = some [2, 0, 1]
    ∧ (2 : ℕ) ∈ [2, 0, 1] ∧ (0 : ℕ) ∈ [2, 0, 1]
    ∧ ([5, 1, 9] : List ℚ).getD 0 0 < ([5, 1, 9] : List ℚ).getD 2 0
    ∧ (1/2 : ℚ) ≤ cpuPairJaccard ⟨0,0,2,2⟩ ⟨0,0,2,2⟩ := by
  with_unfolding_all decide

/-- Claim C3 (refuted by the stale-area bug): the sequential selector is
claimed to reject a candidate exactly when its overlap with some
already-accepted box reaches the threshold.  At the same input as C1,
candidate box 0 (original index) coincides with the already-accepted box
2 — true overlap `1 ≥ 1/2` — yet the selector accepts it, because the
denominator it computes uses the area of a different (pre-sort) row. -/
theorem C3_greedy_rule_violated :
    _non_maximum_suppression_cpu [⟨0,0,2,2⟩, ⟨10,10,20,20⟩, ⟨0,0,2,2⟩] (1/2)
        (some [5, 1, 9]) none = some [2, 0, 1]
    ∧ (1/2 : ℚ) ≤
        devIoU (([⟨0,0,2,2⟩, ⟨10,10,20,20⟩, ⟨0,0,2,2⟩] : List Box).getD 2 default)
          (([⟨0,0,2,2⟩, ⟨10,10,20,20⟩, ⟨0,0,2,2⟩] : List Box).getD 0 default)
    ∧ (0 : ℕ) ∈ [2, 0, 1] := by
  with_unfolding_all decide

/-- Claim C9: the empty input returns an empty index sequence and raises
no error, on either strategy, for any threshold, scores and limit. -/
theorem C9_empty_input (onGpu : Bool) (thresh : ℚ) (score : Option (List ℚ))
    (limit : Option ℕ) :
    non_maximum_suppression onGpu [] thresh score limit = some [] := by
  cases onGpu <;> rfl

/-- Claim C9 witness: the empty-input contract at a concrete
instantiation. -/
theorem C9_empty_input_witness :
    non_maximum_suppression false [] (1/2) (some [3]) (some 2) = some [] :=
  C9_empty_input false (1/2) (some [3]) (some 2)

/-- Claim C10 (refuted by the stale-area bug): rerunning the sequential
selector on its own output is claimed to keep every box.  At the C1
input the first run returns (original indices) `[2, 0, 1]`; rerunning on
the corresponding sub-arrays of boxes and scores suppresses the second
box — the result `[0, 2]` misses position `1 < 3`. -/
theorem C10_not_idempotent :
    _non_maximum_suppression_cpu [⟨0,0,2,2⟩, ⟨10,10,20,20⟩, ⟨0,0,2,2⟩] (1/2)
        (some [5, 1, 9]) none = some [2, 0, 1]
    ∧ _non_maximum_suppression_cpu
        (([2, 0, 1] : List ℕ).map fun p =>
          ([⟨0,0,2,2⟩, ⟨10,10,20,20⟩, ⟨0,0,2,2⟩] : List Box).getD p default)
        (1/2)
        (some (([2, 0, 1] : List ℕ).map fun p => ([5, 1, 9] : List ℚ).getD p 0))
        none = some [0, 2]
    ∧ (1 : ℕ) < 3 ∧ (1 : ℕ) ∉ ([0, 2] : List ℕ) := by
  with_unfolding_all decide

/-- Claim C4 counterexample: with `limit = 0` the sequential selector is
claimed to return at most `0` indices, but the source only tests the
break condition *after* accepting a candidate, so one box comes back. -/
theorem C4_cex_limit_zero :
    _non_maximum_suppression_cpu [⟨0,0,1,1⟩] (1/2) none (some 0) = some [0]
    ∧ ¬ (([0] : List ℕ).length ≤ 0) := by
  with_unfolding_all decide

/-- Claim C4 (amended: the limit must be positive; at `limit = 0` the CPU
path still returns one box, see the counterexample): for every `limit
≥ 1`, both strategies return exactly the length-`limit` prefix of their
own unlimited result, and in particular at most `limit` indices. -/
theorem C4_limit_truncation (bbox : List Box) (thresh : ℚ) (score : Option (List ℚ))
    (l : ℕ) (hl : 1 ≤ l) :
    _non_maximum_suppression_cpu bbox thresh score (some l)
        = Option.map (fun r => r.take l) (_non_maximum_suppression_cpu bbox thresh score none)
      ∧ (∀ r, _non_maximum_suppression_cpu bbox thresh score (some l) = some r →
          r.length ≤ l)
      ∧ _non_maximum_suppression_gpu bbox thresh score (some l)
        = Option.map (fun r => r.take l)
            (_non_maximum_suppression_gpu bbox thresh score none) := by
  have hcpu : _non_maximum_suppression_cpu bbox thresh score (some l)
      = Option.map (fun r => r.take l)
          (_non_maximum_suppression_cpu bbox thresh score none) := by
    cases score with
    | none =>
      simp only [_non_maximum_suppression_cpu]
      by_cases hE : bbox.length = 0
      · rw [if_pos hE, if_pos hE]; simp
      · rw [if_neg hE, if_neg hE]
        rw [nmsLoop_some_eq_take (bbox.map boxArea) bbox thresh l bbox.length 0 []
          (by simp; omega)]
        rfl
    | some s =>
      simp only [_non_maximum_suppression_cpu]
      by_cases hE : bbox.length = 0
      · rw [if_pos hE, if_pos hE]; simp
      · rw [if_neg hE, if_neg hE]
        by_cases hA : ((argsortDesc s).all fun i => decide (i < bbox.length)) = true
        · rw [if_pos hA, if_pos hA]
          rw [nmsLoop_some_eq_take (bbox.map boxArea)
            ((argsortDesc s).map fun i => bbox.getD i default) thresh l
            ((argsortDesc s).map fun i => bbox.getD i default).length 0 []
            (by simp; omega)]
          rw [List.map_take]
          rfl
        · rw [if_neg hA, if_neg hA]; rfl
  have hgpu : _non_maximum_suppression_gpu bbox thresh score (some l)
      = Option.map (fun r => r.take l)
          (_non_maximum_suppression_gpu bbox thresh score none) := by
    cases score with
    | none =>
      simp only [_non_maximum_suppression_gpu]
      by_cases hE : bbox.length = 0
      · rw [if_pos hE, if_pos hE]; simp
      · rw [if_neg hE, if_neg hE]; rfl
    | some s =>
      simp only [_non_maximum_suppression_gpu]
      by_cases hE : bbox.length = 0
      · rw [if_pos hE, if_pos hE]; simp
      · rw [if_neg hE, if_neg hE]
        by_cases hS : s.length = bbox.length
        · rw [if_pos hS, if_pos hS]; rfl
        · rw [if_neg hS, if_neg hS]; rfl
  refine ⟨hcpu, ?_, hgpu⟩
  intro r hr
  rw [hcpu] at hr
  cases hcn : _non_maximum_suppression_cpu bbox thresh score none with
  | none => rw [hcn] at hr; exact absurd hr (by simp)
  | some x =>
    rw [hcn] at hr
    simp only [Option.map_some'] at hr
    have hx : x.take l = r := Option.some.inj hr
    rw [← hx, List.length_take]
    exact min_le_left _ _

/-- Claim C4 witness: the truncation theorem instantiated at one box,
`thresh = 1/2`, no scores and `limit = 1`. -/
theorem C4_limit_truncation_witness :
    _non_maximum_suppression_cpu [⟨0,0,1,1⟩] (1/2) none (some 1)
      = Option.map (fun r => r.take 1)
          (_non_maximum_suppression_cpu [⟨0,0,1,1⟩] (1/2) none none) :=
  (C4_limit_truncation [⟨0,0,1,1⟩] (1/2) none 1 (by decide)).1

/-- Claim C5 counterexample: a score array shorter than the box array is
claimed to fail fast, but the CPU path raises nothing — it silently
computes from the truncated box set.  With two boxes and one score the
call succeeds and the second (disjoint, so otherwise always selected)
box never appears. -/
theorem C5_cex_silent_truncation :
    _non_maximum_suppression_cpu [⟨0,0,1,1⟩, ⟨5,5,6,6⟩] (1/2) (some [7]) none
      = some [0]
    ∧ (1 : ℕ) ∉ ([0] : List ℕ)
    ∧ DisjointBoxes ⟨0,0,1,1⟩ ⟨5,5,6,6⟩ := by
  with_unfolding_all decide

/-- Claim C5 (amended): no shape validation exists.  When the score array
is shorter than the box array the CPU path silently returns a result
whose indices all lie below `len(score)` — boxes past the score length
are dropped, not reported; only when the score array is longer does the
call fail, and then merely because the fancy indexing
`bbox[order]` hits an out-of-range index. -/
theorem C5_no_fail_fast (bbox : List Box) (thresh : ℚ) (s : List ℚ) :
    (s.length < bbox.length →
      ∃ r, _non_maximum_suppression_cpu bbox thresh (some s) none = some r
        ∧ ∀ p ∈ r, p < s.length)
    ∧ (0 < bbox.length → bbox.length < s.length →
        _non_maximum_suppression_cpu bbox thresh (some s) none = none) := by
  have hmem : ∀ i ∈ argsortDesc s, i < s.length := by
    intro i hi
    rw [argsortDesc, List.mem_reverse, argsortAsc, List.mem_insertionSort] at hi
    exact List.mem_range.mp hi
  constructor
  · intro hlt
    have hE : ¬ bbox.length = 0 := by omega
    have hA : ((argsortDesc s).all fun i => decide (i < bbox.length)) = true := by
      rw [List.all_eq_true]
      intro i hi
      exact decide_eq_true ((hmem i hi).trans hlt)
    refine ⟨(nmsLoop (bbox.map boxArea)
        ((argsortDesc s).map fun i => bbox.getD i default) thresh none
        ((argsortDesc s).map fun i => bbox.getD i default).length 0 []).map
        (fun p => (argsortDesc s).getD p 0), ?_, ?_⟩
    · simp only [_non_maximum_suppression_cpu]
      rw [if_neg hE, if_pos hA]
    · intro p hp
      rw [List.mem_map] at hp
      obtain ⟨q, hq, rfl⟩ := hp
      rcases list_getD_mem_or (argsortDesc s) q 0 with h | h
      · exact hmem _ h
      · rw [h]
        by_cases h0 : 0 < s.length
        · exact h0
        · exfalso
          have hnil : argsortDesc s = [] := by
            rw [argsortDesc, argsortAsc, show s.length = 0 by omega]
            simp
          rw [hnil] at hq
          simp [nmsLoop] at hq
  · intro h0 hgt
    have hE : ¬ bbox.length = 0 := by omega
    have hA : ¬ ((argsortDesc s).all fun i => decide (i < bbox.length)) = true := by
      intro hall
      rw [List.all_eq_true] at hall
      have hmem2 : (s.length - 1) ∈ argsortDesc s := by
        rw [argsortDesc, List.mem_reverse, argsortAsc, List.mem_insertionSort]
        exact List.mem_range.mpr (by omega)
      have hlt2 := hall _ hmem2
      rw [decide_eq_true_eq] at hlt2
      omega
    simp only [_non_maximum_suppression_cpu]
    rw [if_neg hE, if_neg hA]

/-- Claim C5 witness: both halves of the no-validation theorem applied at
concrete inputs — two boxes with one score succeed and never mention box
1; one box with two scores fails. -/
theorem C5_no_fail_fast_witness :
    (∃ r, _non_maximum_suppression_cpu [⟨0,0,1,1⟩, ⟨5,5,6,6⟩] (1/2)
        (some [7]) none = some r ∧ ∀ p ∈ r, p < ([7] : List ℚ).length)
    ∧ _non_maximum_suppression_cpu [⟨0,0,1,1⟩] (1/2) (some [7, 8]) none = none :=
  ⟨(C5_no_fail_fast [⟨0,0,1,1⟩, ⟨5,5,6,6⟩] (1/2) [7]).1 (by decide),
   (C5_no_fail_fast [⟨0,0,1,1⟩] (1/2) [7, 8]).2 (by decide) (by decide)⟩

/-- Claim C6: for well-formed boxes the sequential intersection formula
(raw product times indicator) and the parallel clamped formula agree;
disjoint boxes get intersection exactly `0` under both; hence the two
IoU expressions coincide. -/
theorem C6_overlap_metric_agreement (a b : Box)
    (_ha : wellFormedBox a) (_hb : wellFormedBox b) :
    cpuInter a b = interS a b
    ∧ (DisjointBoxes a b → cpuInter a b = 0 ∧ interS a b = 0)
    ∧ cpuPairJaccard a b = devIoU a b := by
  have h1 : cpuInter a b = interS a b := by
    simp only [cpuInter, interS]
    rcases lt_or_le (max a.x0 b.x0) (min a.x1 b.x1) with hx | hx <;>
      rcases lt_or_le (max a.y0 b.y0) (min a.y1 b.y1) with hy | hy
    · rw [if_pos ⟨hx, hy⟩,
        max_eq_left (show (0:ℚ) ≤ min a.x1 b.x1 - max a.x0 b.x0 by linarith),
        max_eq_left (show (0:ℚ) ≤ min a.y1 b.y1 - max a.y0 b.y0 by linarith), mul_one]
    · rw [if_neg (fun hc => absurd hc.2 (not_lt.mpr hy)),
        max_eq_right (show min a.y1 b.y1 - max a.y0 b.y0 ≤ (0:ℚ) by linarith),
        mul_zero, mul_zero]
    · rw [if_neg (fun hc => absurd hc.1 (not_lt.mpr hx)),
        max_eq_right (show min a.x1 b.x1 - max a.x0 b.x0 ≤ (0:ℚ) by linarith),
        mul_zero, zero_mul]
    · rw [if_neg (fun hc => absurd hc.1 (not_lt.mpr hx)),
        max_eq_right (show min a.x1 b.x1 - max a.x0 b.x0 ≤ (0:ℚ) by linarith),
        mul_zero, zero_mul]
  have hI0 : DisjointBoxes a b → interS a b = 0 := by
    intro hd
    simp only [interS]
    rcases hd with h | h
    · rw [max_eq_right (show min a.x1 b.x1 - max a.x0 b.x0 ≤ (0:ℚ) by linarith), zero_mul]
    · rw [max_eq_right (show min a.y1 b.y1 - max a.y0 b.y0 ≤ (0:ℚ) by linarith), mul_zero]
  refine ⟨h1, fun hd => ⟨h1.trans (hI0 hd), hI0 hd⟩, ?_⟩
  simp only [cpuPairJaccard, devIoU]
  rw [h1]

/-- Claim C6 witness: the metric agreement at the disjoint well-formed
pair `(0,0,1,1)` and `(2,2,3,3)`, including the zero-intersection
conclusion of its disjointness branch. -/
theorem C6_overlap_metric_agreement_witness :
    cpuInter ⟨0,0,1,1⟩ ⟨2,2,3,3⟩ = interS ⟨0,0,1,1⟩ ⟨2,2,3,3⟩
    ∧ (cpuInter ⟨0,0,1,1⟩ ⟨2,2,3,3⟩ = 0 ∧ interS ⟨0,0,1,1⟩ ⟨2,2,3,3⟩ = 0)
    ∧ cpuPairJaccard ⟨0,0,1,1⟩ ⟨2,2,3,3⟩ = devIoU ⟨0,0,1,1⟩ ⟨2,2,3,3⟩ := by
  have h := C6_overlap_metric_agreement ⟨0,0,1,1⟩ ⟨2,2,3,3⟩
    (by with_unfolding_all decide) (by with_unfolding_all decide)
  exact ⟨h.1, h.2.1 (by with_unfolding_all decide), h.2.2⟩

/-- A word built by or-ing `1 <<< i` over `i < m` for the positions
satisfying `p` has bit `k` set exactly when the initial word had it or
`k < m` and `p k` holds. -/
theorem testBit_foldl_orBit (p : ℕ → Prop) [DecidablePred p] :
    ∀ (m k t0 : ℕ),
      ((List.range m).foldl (fun t i => if p i then t ||| (1 <<< i) else t) t0).testBit k
          = true
        ↔ (t0.testBit k = true ∨ (k < m ∧ p k)) := by
  intro m
  induction m with
  | zero => intro k t0; simp
  | succ m ih =>
    intro k t0
    rw [List.range_succ, List.foldl_append, List.foldl_cons, List.foldl_nil]
    by_cases hp : p m
    · rw [if_pos hp, Nat.testBit_lor, show (1 <<< m) = 2 ^ m by simp [Nat.shiftLeft_eq]]
      by_cases hk : k = m
      · subst hk
        rw [Nat.testBit_two_pow_self, Bool.or_true]
        exact iff_of_true rfl (Or.inr ⟨Nat.lt_succ_self k, hp⟩)
      · rw [Nat.testBit_two_pow_of_ne (fun hmk => hk hmk.symm), Bool.or_false, ih]
        constructor
        · rintro (h | ⟨h1, h2⟩)
          · exact Or.inl h
          · exact Or.inr ⟨by omega, h2⟩
        · rintro (h | ⟨h1, h2⟩)
          · exact Or.inl h
          · exact Or.inr ⟨by omega, h2⟩
    · rw [if_neg hp, ih]
      constructor
      · rintro (h | ⟨h1, h2⟩)
        · exact Or.inl h
        · exact Or.inr ⟨by omega, h2⟩
      · rintro (h | ⟨h1, h2⟩)
        · exact Or.inl h
        · refine Or.inr ⟨?_, h2⟩
          rcases Nat.lt_succ_iff_lt_or_eq.mp h1 with h3 | h3
          · exact h3
          · exact absurd (h3 ▸ h2) hp

/-- Claim C7: the kernel writes, for row box `r` and column tile `j`, a
word whose bit `k` is set exactly when column `j*TILE + k` names an
existing box, `k` stays inside the tile, on the diagonal tile the column
lies strictly after `r`'s in-tile position (earlier same-tile bits are
never computed and stay zero, while cross-tile words carry every
column), and the pair overlaps at or above the threshold. -/
theorem C7_kernel_mask_bits (sorted : List Box) (thresh : ℚ) (r j k : ℕ) :
    (nmsKernelWord sorted thresh r j).testBit k = true
      ↔ (j * TILE + k < sorted.length ∧ k < TILE
          ∧ (r / TILE = j → r % TILE < k)
          ∧ thresh ≤ devIoU (sorted.getD r default)
              (sorted.getD (j * TILE + k) default)) := by
  have h := testBit_foldl_orBit
    (fun i => (if r / TILE = j then r % TILE + 1 else 0) ≤ i
      ∧ thresh ≤ devIoU (sorted.getD r default) (sorted.getD (j * TILE + i) default))
    (colSize sorted.length j) k 0
  rw [Nat.zero_testBit] at h
  simp only [Bool.false_eq_true, false_or] at h
  simp only [nmsKernelWord]
  rw [h]
  unfold colSize
  by_cases hd : r / TILE = j
  · rw [if_pos hd]
    constructor
    · rintro ⟨h1, h2, h3⟩
      rw [Nat.lt_min] at h1
      exact ⟨by omega, h1.2, fun _ => by omega, h3⟩
    · rintro ⟨h1, h2, h3, h4⟩
      have h5 := h3 hd
      refine ⟨?_, by omega, h4⟩
      rw [Nat.lt_min]
      omega
  · rw [if_neg hd]
    constructor
    · rintro ⟨h1, h2, h3⟩
      rw [Nat.lt_min] at h1
      exact ⟨by omega, h1.2, fun hc => absurd hc hd, h3⟩
    · rintro ⟨h1, h2, h3, h4⟩
      refine ⟨?_, by omega, h4⟩
      rw [Nat.lt_min]
      omega

/-- Claim C7 witness: the bit characterisation at the concrete sorted
boxes of the C1 run, row 0, tile 0, bit 1 (which is set: the two boxes
coincide). -/
theorem C7_kernel_mask_bits_witness :
    (nmsKernelWord [⟨0,0,2,2⟩, ⟨0,0,2,2⟩, ⟨10,10,20,20⟩] (1/2) 0 0).testBit 1 = true
      ↔ (0 * TILE + 1 < ([⟨0,0,2,2⟩, ⟨0,0,2,2⟩, ⟨10,10,20,20⟩] : List Box).length
          ∧ 1 < TILE ∧ (0 / TILE = 0 → 0 % TILE < 1)
          ∧ (1/2 : ℚ) ≤ devIoU
              (([⟨0,0,2,2⟩, ⟨0,0,2,2⟩, ⟨10,10,20,20⟩] : List Box).getD 0 default)
              (([⟨0,0,2,2⟩, ⟨0,0,2,2⟩, ⟨10,10,20,20⟩] : List Box).getD (0 * TILE + 1)
                default)) :=
  C7_kernel_mask_bits [⟨0,0,2,2⟩, ⟨0,0,2,2⟩, ⟨10,10,20,20⟩] (1/2) 0 0 1

/-- Claim C8 counterexample: ties are claimed to keep the original
relative index order, but with two equal scores the reversed stable
argsort puts index 1 before index 0. -/
theorem C8_cex_tie_order_reversed :
    argsortDesc [(1 : ℚ), 1] = [1, 0]
    ∧ ([(1 : ℚ), 1].getD 0 0 = [(1 : ℚ), 1].getD 1 0) := by
  with_unfolding_all decide

/-- Claim C8 (amended: ties come out in *reversed* original order, the
sorted ascending argsort being reversed wholesale; numpy's default
unstable sort never promises preservation either): the priority order is
a permutation of `[0, R)` and along it every later entry has a strictly
smaller score or an equal score and a smaller original index. -/
theorem C8_priority_order (s : List ℚ) :
    List.Perm (argsortDesc s) (List.range s.length)
    ∧ List.Pairwise
        (fun i j => s.getD j 0 < s.getD i 0 ∨ (s.getD j 0 = s.getD i 0 ∧ j ≤ i))
        (argsortDesc s) := by
  constructor
  · exact (List.reverse_perm _).trans (List.perm_insertionSort _ _)
  · have hs : List.Pairwise (scoreRel s) (argsortAsc s) :=
      List.sorted_insertionSort (scoreRel s) (List.range s.length)
    exact List.pairwise_reverse.mpr hs

/-- Claim C8 witness: the amended order contract at the concrete tied
score list `[1, 1]`. -/
theorem C8_priority_order_witness :
    List.Perm (argsortDesc [(1 : ℚ), 1]) (List.range [(1 : ℚ), 1].length)
    ∧ List.Pairwise
        (fun i j => [(1 : ℚ), 1].getD j 0 < [(1 : ℚ), 1].getD i 0
          ∨ ([(1 : ℚ), 1].getD j 0 = [(1 : ℚ), 1].getD i 0 ∧ j ≤ i))
        (argsortDesc [(1 : ℚ), 1]) :=
  C8_priority_order [(1 : ℚ), 1]
